import Mathlib

/-!
Verification of the semantic-highlighting core
(clang-tools-extra/clangd/SemanticHighlighting.cpp).

The C++ source is shallowly embedded: each C++ function of the core is
translated to an executable Lean definition operating on the data model
(kinds, positions, ranges, tokens).  Machine integers are modelled as
`Nat`/`Int` with explicit reductions modulo 2^16 / 2^32 where the C++
performs integral conversions.
-/

/-- The closed enumeration of semantic highlighting kinds.
Modelled from the spec: the enum `HighlightingKind` lives in the header
`SemanticHighlighting.h`, which is not part of the sources; the spec (§3)
fixes the list and its stable order, which matches the order used by
`operator<<` and `toTextMateScope` in the source. -/
inductive HighlightingKind where
  | Variable
  | LocalVariable
  | Parameter
  | Function
  | Method
  | StaticMethod
  | Field
  | StaticField
  | Class
  | Enum
  | EnumConstant
  | Typedef
  | DependentType
  | DependentName
  | Namespace
  | TemplateParameter
  | Primitive
  | Macro
deriving DecidableEq, Repr

/-- `static_cast<int>(Kind)`: the stable ordinal of a kind (declaration order). -/
def kindOrd : HighlightingKind → Nat
  | .Variable => 0
  | .LocalVariable => 1
  | .Parameter => 2
  | .Function => 3
  | .Method => 4
  | .StaticMethod => 5
  | .Field => 6
  | .StaticField => 7
  | .Class => 8
  | .Enum => 9
  | .EnumConstant => 10
  | .Typedef => 11
  | .DependentType => 12
  | .DependentName => 13
  | .Namespace => 14
  | .TemplateParameter => 15
  | .Primitive => 16
  | .Macro => 17

/-- A zero-based text position (`Position` of the protocol layer).
Modelled from the spec (§3): (line, column) in zero-based editor
coordinates. -/
structure Position where
  line : Nat
  character : Nat
deriving DecidableEq, Repr

/-- A half-open source span (`Range` of the protocol layer).
Modelled from the spec (§3).  The C++ field `end` is a Lean keyword and is
rendered `end_`. -/
structure SourceRange where
  start : Position
  end_ : Position
deriving DecidableEq, Repr

/-- `HighlightingToken`: a (Kind, SourceRange) pair (fields named as in the
source: `Kind` and `R`). -/
structure HighlightingToken where
  Kind : HighlightingKind
  R : SourceRange
deriving DecidableEq, Repr

/-- `LineHighlightings`: a line number together with the tokens of that line. -/
structure LineHighlightings where
  Line : Nat
  Tokens : List HighlightingToken
deriving DecidableEq, Repr

/-- A (line, base64 payload) pair (`SemanticHighlightingInformation` of the
protocol layer). Modelled from the spec (§4.5 output). -/
structure SemanticHighlightingInformation where
  Line : Nat
  Tokens : String
deriving DecidableEq, Repr

/-- The total order on tokens used by `llvm::sort`:
`std::tie(L.R, L.Kind) < std::tie(R.R, R.Kind)` — lexicographic on
(start line, start column, end line, end column, kind ordinal).
Modelled from the spec (§3 canonical order) for the `SourceRange`
comparison, whose `operator<` lives in the protocol header that is not
part of the sources.  Stated in non-strict (`≤`) form, as required by
`List.insertionSort`. -/
def tokLE (a b : HighlightingToken) : Prop :=
  a.R.start.line < b.R.start.line ∨ (a.R.start.line = b.R.start.line ∧
   (a.R.start.character < b.R.start.character ∨ (a.R.start.character = b.R.start.character ∧
    (a.R.end_.line < b.R.end_.line ∨ (a.R.end_.line = b.R.end_.line ∧
     (a.R.end_.character < b.R.end_.character ∨ (a.R.end_.character = b.R.end_.character ∧
      kindOrd a.Kind ≤ kindOrd b.Kind)))))))

instance : DecidableRel tokLE := fun a b => by unfold tokLE; infer_instance

/-- Strict lexicographic order on source ranges (start position, then end
position), the range part of the canonical token order. -/
def rangeLT (a b : SourceRange) : Prop :=
  a.start.line < b.start.line ∨ (a.start.line = b.start.line ∧
   (a.start.character < b.start.character ∨ (a.start.character = b.start.character ∧
    (a.end_.line < b.end_.line ∨ (a.end_.line = b.end_.line ∧
     a.end_.character < b.end_.character)))))

instance : IsTotal HighlightingToken tokLE :=
  ⟨by
    intro a b
    obtain ⟨ka, ⟨⟨a1, a2⟩, ⟨a3, a4⟩⟩⟩ := a
    obtain ⟨kb, ⟨⟨b1, b2⟩, ⟨b3, b4⟩⟩⟩ := b
    unfold tokLE
    simp only
    omega⟩

instance : IsTrans HighlightingToken tokLE :=
  ⟨by
    intro a b c hab hbc
    obtain ⟨ka, ⟨⟨a1, a2⟩, ⟨a3, a4⟩⟩⟩ := a
    obtain ⟨kb, ⟨⟨b1, b2⟩, ⟨b3, b4⟩⟩⟩ := b
    obtain ⟨kc, ⟨⟨c1, c2⟩, ⟨c3, c4⟩⟩⟩ := c
    unfold tokLE at *
    simp only at *
    omega⟩

/-- `std::unique` on a sorted vector: drop adjacent duplicates. -/
def dedupAdjacent : List HighlightingToken → List HighlightingToken
  | [] => []
  | [a] => [a]
  | a :: b :: l => if a = b then dedupAdjacent (b :: l) else a :: dedupAdjacent (b :: l)

/-- The conflict-removal loop at the end of `collectTokens`
(SemanticHighlighting.cpp:144-160): walk the sorted, deduplicated stream;
`Conflicting = TokRef.take_while(T.R == TokRef.front().R)`; a run of
exactly one token is kept, a longer run is dropped whole, and the cursor
advances past the run. -/
def removeConflicting : List HighlightingToken → List HighlightingToken
  | [] => []
  | t :: ts =>
      if (ts.takeWhile fun x => decide (x.R = t.R)).isEmpty then
        t :: removeConflicting (ts.dropWhile fun x => decide (x.R = t.R))
      else
        removeConflicting (ts.dropWhile fun x => decide (x.R = t.R))
termination_by l => l.length
decreasing_by
  all_goals
    simp only [List.length_cons]
    have h := (List.dropWhile_sublist (l := ts) (fun x => decide (x.R = t.R))).length_le
    omega

/-- The raw token stream of `collectTokens`: the tokens pushed by the AST
traversal followed by one `{HighlightingKind::Macro, M}` token per macro
range (SemanticHighlighting.cpp:131-135). -/
def rawTokens (astTokens : List HighlightingToken) (macroRanges : List SourceRange) :
    List HighlightingToken :=
  astTokens ++ macroRanges.map fun M => ⟨HighlightingKind.Macro, M⟩

/-- The sorted, exact-duplicate-free stream of `collectTokens`
(`llvm::sort` + `std::unique` + `erase`, SemanticHighlighting.cpp:138-140). -/
def dedupSorted (astTokens : List HighlightingToken) (macroRanges : List SourceRange) :
    List HighlightingToken :=
  dedupAdjacent (List.insertionSort tokLE (rawTokens astTokens macroRanges))

/-- `HighlightingTokenCollector::collectTokens`
(SemanticHighlighting.cpp:129-162): sort, remove exact duplicates, then
remove all tokens belonging to a same-range conflicting run. -/
def collectTokens (astTokens : List HighlightingToken) (macroRanges : List SourceRange) :
    List HighlightingToken :=
  removeConflicting (dedupSorted astTokens macroRanges)

/-- `NextLineNumber` (SemanticHighlighting.cpp:440-446): the minimum of the
start lines of the next unprocessed token on each side;
`std::numeric_limits<int>::max()` stands for an exhausted side, so with one
side exhausted the other side's next line wins.  With both sides exhausted
the loop has already terminated; that case is given the dummy value 0. -/
def nextLineNumber : List HighlightingToken → List HighlightingToken → Nat
  | [], [] => 0
  | n :: _, [] => n.R.start.line
  | [], o :: _ => o.R.start.line
  | n :: _, o :: _ => min n.R.start.line o.R.start.line

/-- One iteration onward of the loop of `diffHighlightings`
(SemanticHighlighting.cpp:448-454), for the iterations whose line number is
`NextLineNumber()` of the current cursors: take both sides' slices for that
line, emit a changed-line record when they differ, advance both cursors
past the slices and continue.  The loop runs while either cursor has
tokens left. -/
def diffGo (new old : List HighlightingToken) : List LineHighlightings :=
  if new = [] ∧ old = [] then
    []
  else
    let LineNumber := nextLineNumber new old
    let NewLine := new.takeWhile fun t => decide (t.R.start.line = LineNumber)
    let OldLine := old.takeWhile fun t => decide (t.R.start.line = LineNumber)
    let rest := diffGo (new.dropWhile fun t => decide (t.R.start.line = LineNumber))
                       (old.dropWhile fun t => decide (t.R.start.line = LineNumber))
    if NewLine = OldLine then rest else ⟨LineNumber, NewLine⟩ :: rest
termination_by new.length + old.length
decreasing_by
  have key : ∀ (L : Nat) (x : HighlightingToken) (xs : List HighlightingToken),
      x.R.start.line = L →
      (List.dropWhile (fun t => decide (t.R.start.line = L)) (x :: xs)).length <
        (x :: xs).length := by
    intro L x xs hx
    rw [List.dropWhile_cons_of_pos (by simp [hx])]
    have h := (List.dropWhile_sublist (l := xs)
      (fun t => decide (t.R.start.line = L))).length_le
    simp only [List.length_cons]
    omega
  have bnd : ∀ (L : Nat) (xs : List HighlightingToken),
      (List.dropWhile (fun t => decide (t.R.start.line = L)) xs).length ≤ xs.length :=
    fun L xs => (List.dropWhile_sublist (l := xs)
      (fun t => decide (t.R.start.line = L))).length_le
  rcases new with _ | ⟨n, nt⟩ <;> rcases old with _ | ⟨o, ot⟩
  · simp at *
  · have h1 := key (nextLineNumber [] (o :: ot)) o ot (by simp [nextLineNumber])
    simp only [List.dropWhile_nil, List.length_nil] at *
    omega
  · have h1 := key (nextLineNumber (n :: nt) []) n nt (by simp [nextLineNumber])
    simp only [List.dropWhile_nil, List.length_nil] at *
    omega
  · rcases Nat.le_total n.R.start.line o.R.start.line with hmin | hmin
    · have h1 := key (nextLineNumber (n :: nt) (o :: ot)) n nt
        (by simp [nextLineNumber, Nat.min_eq_left hmin])
      have h2 := bnd (nextLineNumber (n :: nt) (o :: ot)) (o :: ot)
      omega
    · have h1 := key (nextLineNumber (n :: nt) (o :: ot)) o ot
        (by simp [nextLineNumber, Nat.min_eq_right hmin])
      have h2 := bnd (nextLineNumber (n :: nt) (o :: ot)) (n :: nt)
      omega

/-- `diffHighlightings` (SemanticHighlighting.cpp:412-457).  The C++ loop
starts at `LineNumber = 0` with both cursors at the beginning and runs
while either cursor has tokens left; every later iteration's line number is
`NextLineNumber()`, which is exactly `diffGo`. -/
def diffHighlightings (New Old : List HighlightingToken) : List LineHighlightings :=
  if New = [] ∧ Old = [] then
    []
  else
    let NewLine := New.takeWhile fun t => decide (t.R.start.line = 0)
    let OldLine := Old.takeWhile fun t => decide (t.R.start.line = 0)
    let rest := diffGo (New.dropWhile fun t => decide (t.R.start.line = 0))
                       (Old.dropWhile fun t => decide (t.R.start.line = 0))
    if NewLine = OldLine then rest else ⟨0, NewLine⟩ :: rest

/-- The per-start-line grouping of a token set: the tokens whose range
starts on line `L`, in order (spec §3, `LineHighlightings` is "recomputed
by grouping a sorted token sequence by start line"). -/
def lineFilter (S : List HighlightingToken) (L : Nat) : List HighlightingToken :=
  S.filter fun t => decide (t.R.start.line = L)

/-- Overwriting a per-line grouping with the changed-line records of a
diff: a line mentioned in the diff is replaced by its new slice, any other
line keeps the old grouping (spec §8, diff completeness). -/
def applyDiffedLines (ds : List LineHighlightings) (old : List HighlightingToken) (L : Nat) :
    List HighlightingToken :=
  match ds.find? fun d => decide (d.Line = L) with
  | some d => d.Tokens
  | none => lineFilter old L

/-- `write32be` (SemanticHighlighting.cpp:346-350): append the 4 bytes of a
`uint32_t` in big-endian order.  The C++ parameter is `uint32_t`, so the
argument is reduced modulo 2^32 (the `int` start column is converted at the
call site). -/
def write32be (I : Nat) : List Nat :=
  [I % 4294967296 / 16777216, I % 4294967296 / 65536 % 256,
   I % 4294967296 / 256 % 256, I % 4294967296 % 256]

/-- `write16be` (SemanticHighlighting.cpp:352-356): append the 2 bytes of a
`uint16_t` in big-endian order, the argument reduced modulo 2^16. -/
def write16be (I : Nat) : List Nat :=
  [I % 65536 / 256, I % 65536 % 256]

/-- The conversion of a C++ `int` to `uint16_t` (reduction modulo 2^16 of
the mathematical value, mapping negatives to their two's-complement
residue). -/
def uint16OfInt (i : Int) : Nat :=
  (i % 65536).toNat

/-- The conversion of a C++ `int` expression to `uint32_t`. -/
def uint32OfInt (i : Int) : Nat :=
  (i % 4294967296).toNat

/-- The bytes written for one token by the loop body of
`toSemanticHighlightingInformation` (SemanticHighlighting.cpp:491-493):
`write32be(Token.R.start.character)`,
`write16be(Token.R.end.character - Token.R.start.character)` (an `int`
subtraction converted to `uint16_t`), `write16be(static_cast<int>(Kind))`. -/
def tokenBytes (Token : HighlightingToken) : List Nat :=
  write32be Token.R.start.character ++
  write16be (uint16OfInt ((Token.R.end_.character : Int) - (Token.R.start.character : Int))) ++
  write16be (kindOrd Token.Kind)

/-- `LineByteTokens` (SemanticHighlighting.cpp:483-494): the byte buffer a
line's tokens are streamed into, one record appended per token in order. -/
def lineByteTokens (Tokens : List HighlightingToken) : List Nat :=
  Tokens.foldl (fun OS Token => OS ++ tokenBytes Token) []

/-- The base64 alphabet table of `encodeBase64`
(SemanticHighlighting.cpp:319-321). -/
def base64TableChars : List Char :=
  ("ABCDEFGHIJKLMNOPQRSTUVWXYZabcdefghijklmnopqrstuvwxyz0123456789+/").toList

/-- `Table[i]` for an index already masked to 6 bits. -/
def tableChar (i : Nat) : Char :=
  base64TableChars.getD i 'A'

/-- Reading one stored byte back as a C++ `char` promoted to `int`.
`char` is signed on LLVM's mainstream targets (x86 Linux/Windows/macOS), so
a stored byte ≥ 0x80 is read back as a negative value. -/
def toSignedChar (b : Nat) : Int :=
  if b % 256 < 128 then ((b % 256 : Nat) : Int) else ((b % 256 : Nat) : Int) - 256

/-- `encodeBase64` (SemanticHighlighting.cpp:318-344), character list form.
Groups of three bytes while at least three remain, then a 1- or 2-byte
tail padded with `=`.  Each group computes
`uint32_t X = (Bytes[I] << 16) + (Bytes[I+1] << 8) + Bytes[I+2]` — the
`char` operands are promoted to (signed) `int` before the shifts and the
sum is converted to `uint32_t` — and emits `Table[(X >> s) & 63]`. -/
def encodeBase64Chars : List Nat → List Char
  | b0 :: b1 :: b2 :: rest =>
      let X := uint32OfInt (toSignedChar b0 * 65536 + toSignedChar b1 * 256 + toSignedChar b2)
      tableChar (X / 262144 % 64) :: tableChar (X / 4096 % 64) ::
        tableChar (X / 64 % 64) :: tableChar (X % 64) :: encodeBase64Chars rest
  | [b0] =>
      let X := uint32OfInt (toSignedChar b0 * 65536)
      [tableChar (X / 262144 % 64), tableChar (X / 4096 % 64), '=', '=']
  | [b0, b1] =>
      let X := uint32OfInt (toSignedChar b0 * 65536 + toSignedChar b1 * 256)
      [tableChar (X / 262144 % 64), tableChar (X / 4096 % 64), tableChar (X / 64 % 64), '=']
  | [] => []

/-- `encodeBase64` as a string. -/
def encodeBase64 (Bytes : List Nat) : String :=
  String.mk (encodeBase64Chars Bytes)

/-- `toSemanticHighlightingInformation` (SemanticHighlighting.cpp:473-500):
empty input returns the empty list; otherwise one
(line, base64(record bytes)) entry per changed line, in order. -/
def toSemanticHighlightingInformation (Tokens : List LineHighlightings) :
    List SemanticHighlightingInformation :=
  if Tokens.length = 0 then []
  else Tokens.map fun Line => ⟨Line.Line, encodeBase64 (lineByteTokens Line.Tokens)⟩

/-- Big-endian read-back of a byte list (most significant byte first), used
to state that the written records decode to the intended field values. -/
def readBE (bs : List Nat) : Nat :=
  bs.foldl (fun acc b => acc * 256 + b) 0

/-- Modelled from the spec: standard base64 alphabet lookup for decoding
(the decoder is the client side of §4.5 / §8 "Encoding round-trip" and has
no implementation in the source).  `=` is not in the alphabet. -/
def b64Index (c : Char) : Option Nat :=
  base64TableChars.findIdx? fun x => decide (x = c)

/-- Modelled from the spec: standard base64 decoding with `=` padding
(§4.5: "base64-encoded using the standard alphabet with `=` padding").
Four characters decode to three bytes; a `xx==` tail to one byte, a
`xxx=` tail to two. -/
def decodeBase64Chars : List Char → Option (List Nat)
  | [] => some []
  | c0 :: c1 :: c2 :: c3 :: rest =>
      if c2 = '=' ∧ c3 = '=' ∧ rest = [] then
        match b64Index c0, b64Index c1 with
        | some i0, some i1 => some [i0 * 4 + i1 / 16]
        | _, _ => none
      else if c3 = '=' ∧ rest = [] then
        match b64Index c0, b64Index c1, b64Index c2 with
        | some i0, some i1, some i2 => some [i0 * 4 + i1 / 16, i1 % 16 * 16 + i2 / 4]
        | _, _, _ => none
      else
        match b64Index c0, b64Index c1, b64Index c2, b64Index c3, decodeBase64Chars rest with
        | some i0, some i1, some i2, some i3, some bs =>
            some ([i0 * 4 + i1 / 16, i1 % 16 * 16 + i2 / 4, i2 % 4 * 64 + i3] ++ bs)
        | _, _, _, _, _ => none
  | _ => none

/-- Modelled from the spec: base64 decoding of a payload string. -/
def decodeBase64 (s : String) : Option (List Nat) :=
  decodeBase64Chars s.data

mutual

/-- The shapes of resolved declarations distinguished by the `dyn_cast`
chain of `kindForDecl` (SemanticHighlighting.cpp:39-94).  A wrapper
declaration carries the declaration it unwraps to; a null
`getTargetDecl`/`getTemplatedDecl` is a separate constructor.  A
`TypedefNameDecl` whose `getUnderlyingType().getTypePtrOrNull()` is null is
modelled by an underlying `CType.otherType` (both classify to "no kind" in
`kindForType`, giving the same fallback).  Shapes the chain does not
recognize (including the lambda `RecordDecl`, handled by its flag) are
`otherDecl`. -/
inductive CDecl where
  | usingShadow (target : CDecl)
  | usingShadowNull
  | templateDecl (isClassTemplate : Bool) (templated : CDecl)
  | templateDeclNull (isClassTemplate : Bool)
  | typedefName (underlying : CType)
  | record (isLambda : Bool)
  | cxxConstructor
  | cxxMethod (isStatic : Bool)
  | fieldDecl
  | enumDecl
  | enumConstant
  | parmVar
  | varDecl (isStaticDataMember : Bool) (isLocalVarDecl : Bool)
  | bindingDecl
  | functionDecl
  | namespaceDecl
  | namespaceAlias
  | usingDirective
  | templateTemplateParm
  | templateTypeParm
  | nonTypeTemplateParm
  | otherDecl

/-- The shapes of types distinguished by `kindForType`
(SemanticHighlighting.cpp:95-105): builtin types, template-type-parameter
types (carrying their declaration), types with a tag declaration, and
everything else. -/
inductive CType where
  | builtin
  | templateTypeParmType (decl : CDecl)
  | tagType (decl : CDecl)
  | otherType

end

/-- The non-recursive tail of `kindForDecl` (SemanticHighlighting.cpp:58-93):
the `dyn_cast`/`isa` chain applied to the declaration left after the
`UsingShadowDecl`/`TemplateDecl` unwrapping, for every shape except
`TypedefNameDecl` (whose branch recurses into `kindForType` and is kept in
`kindForDecl` itself). -/
def classifyBase : CDecl → Option HighlightingKind
  | .record isLambda => if isLambda then none else some HighlightingKind.Class
  | .templateDecl isClassTemplate _ =>
      if isClassTemplate then some HighlightingKind.Class else none
  | .templateDeclNull isClassTemplate =>
      if isClassTemplate then some HighlightingKind.Class else none
  | .cxxConstructor => some HighlightingKind.Class
  | .cxxMethod isStatic =>
      some (if isStatic then HighlightingKind.StaticMethod else HighlightingKind.Method)
  | .fieldDecl => some HighlightingKind.Field
  | .enumDecl => some HighlightingKind.Enum
  | .enumConstant => some HighlightingKind.EnumConstant
  | .parmVar => some HighlightingKind.Parameter
  | .varDecl isStaticDataMember isLocalVarDecl =>
      some (if isStaticDataMember then HighlightingKind.StaticField
            else if isLocalVarDecl then HighlightingKind.LocalVariable
            else HighlightingKind.Variable)
  | .bindingDecl => some HighlightingKind.Variable
  | .functionDecl => some HighlightingKind.Function
  | .namespaceDecl => some HighlightingKind.Namespace
  | .namespaceAlias => some HighlightingKind.Namespace
  | .usingDirective => some HighlightingKind.Namespace
  | .templateTemplateParm => some HighlightingKind.TemplateParameter
  | .templateTypeParm => some HighlightingKind.TemplateParameter
  | .nonTypeTemplateParm => some HighlightingKind.TemplateParameter
  | .typedefName _ => none
  | .usingShadow _ => none
  | .usingShadowNull => none
  | .otherDecl => none

mutual

/-- `kindForDecl` (SemanticHighlighting.cpp:39-94): unwrap a
`UsingShadowDecl` to its target (once), then a `TemplateDecl` to its
templated declaration (once); a `TypedefNameDecl` is classified as its
underlying type when `kindForType` succeeds and as the generic `Typedef`
kind otherwise; all remaining shapes go through the `isa` chain
(`classifyBase`).  The unwrap combinations are expanded into patterns so
that every recursive call is on a structurally smaller term. -/
def kindForDecl : CDecl → Option HighlightingKind
  | .usingShadow (.templateDecl _ (.typedefName u)) =>
      (match kindForType u with
       | some K => some K
       | none => some HighlightingKind.Typedef)
  | .usingShadow (.templateDecl _ t) => classifyBase t
  | .usingShadow (.typedefName u) =>
      (match kindForType u with
       | some K => some K
       | none => some HighlightingKind.Typedef)
  | .usingShadow t => classifyBase t
  | .templateDecl _ (.typedefName u) =>
      (match kindForType u with
       | some K => some K
       | none => some HighlightingKind.Typedef)
  | .templateDecl _ t => classifyBase t
  | .typedefName u =>
      (match kindForType u with
       | some K => some K
       | none => some HighlightingKind.Typedef)
  | d => classifyBase d

/-- `kindForType` (SemanticHighlighting.cpp:95-105): builtins are
`Primitive`; a `TemplateTypeParmType` and a type with a tag declaration
classify via their declaration; anything else has no kind. -/
def kindForType : CType → Option HighlightingKind
  | .builtin => some HighlightingKind.Primitive
  | .templateTypeParmType d => kindForDecl d
  | .tagType d => kindForDecl d
  | .otherType => none

end

/-- The loop of `kindForCandidateDecls` (SemanticHighlighting.cpp:109-117)
with the running `Result`: for each candidate, an unclassifiable
declaration or a kind different from an already-recorded one aborts with
"no kind"; otherwise the kind is recorded and the loop continues. -/
def kindForCandidateDeclsLoop (Result : Option HighlightingKind) :
    List CDecl → Option HighlightingKind
  | [] => Result
  | Decl :: Decls =>
      match kindForDecl Decl with
      | none => none
      | some Kind =>
          match Result with
          | some R => if Kind ≠ R then none else kindForCandidateDeclsLoop (some Kind) Decls
          | none => kindForCandidateDeclsLoop (some Kind) Decls

/-- `kindForCandidateDecls` (SemanticHighlighting.cpp:106-118): the kind
shared by every candidate of the set, or "no kind" on any disagreement or
unclassifiable candidate (and for the empty set, whose loop never assigns
`Result`). -/
def kindForCandidateDecls (Decls : List CDecl) : Option HighlightingKind :=
  kindForCandidateDeclsLoop none Decls

/-- The name kinds `canHighlightName` distinguishes
(SemanticHighlighting.cpp:30-36): constructor names and using-directive
names are always highlightable; other names count only through their
identifier. -/
inductive DeclarationNameKind where
  | cxxConstructorName
  | cxxUsingDirective
  | otherName
deriving DecidableEq, Repr

/-- A declaration name: its kind and, when present, its identifier text
(`getAsIdentifierInfo` returning null is `none`). -/
structure DeclarationName where
  kind : DeclarationNameKind
  identifier : Option String
deriving DecidableEq, Repr

/-- `canHighlightName` (SemanticHighlighting.cpp:30-36). -/
def canHighlightName (Name : DeclarationName) : Bool :=
  if Name.kind = DeclarationNameKind.cxxConstructorName ∨
     Name.kind = DeclarationNameKind.cxxUsingDirective then
    true
  else
    match Name.identifier with
    | some II => !II.isEmpty
    | none => false

/-- A source location as `addToken` inspects it: validity, whether it is a
macro-expansion location, and an identity used by the source-manager
oracles.  Modelled from the spec (§4.2 range resolution); the concrete
`clang::SourceLocation` is an external collaborator. -/
structure SourceLocation where
  isInvalid : Bool
  isMacroID : Bool
  locId : Nat
deriving DecidableEq, Repr

/-- The source-manager operations `addToken` uses, as oracles over
locations.  Modelled from the spec (§6 input interface (3)): macro
argument-expansion testing, spelling-location rewriting, primary-file
membership, and token-range lookup (which can fail). -/
structure SourceManager where
  isMacroArgExpansion : SourceLocation → Bool
  getSpellingLoc : SourceLocation → SourceLocation
  isInsideMainFile : SourceLocation → Bool
  getTokenRange : SourceLocation → Option SourceRange

/-- `HighlightingTokenCollector::addToken(SourceLocation, HighlightingKind)`
(SemanticHighlighting.cpp:280-307): invalid locations are dropped; a
macro-expansion location is dropped unless it is a macro-argument
expansion, in which case it is rewritten to its spelling location; a
location outside the main file is dropped; a failed range lookup is logged
and dropped; otherwise `{Kind, Range}` is appended to the token stream. -/
def addToken (SM : SourceManager) (Tokens : List HighlightingToken)
    (Loc : SourceLocation) (Kind : HighlightingKind) : List HighlightingToken :=
  if Loc.isInvalid then
    Tokens
  else if Loc.isMacroID ∧ ¬ SM.isMacroArgExpansion Loc then
    Tokens
  else
    let Loc := if Loc.isMacroID then SM.getSpellingLoc Loc else Loc
    if ¬ SM.isInsideMainFile Loc then
      Tokens
    else
      match SM.getTokenRange Loc with
      | none => Tokens
      | some R => Tokens ++ [⟨Kind, R⟩]

/-- `VisitOverloadExpr` (SemanticHighlighting.cpp:176-182): when the name
is highlightable, add a token classified by the candidate set, falling
back to `DependentName` (`getValueOr`). -/
def VisitOverloadExpr (SM : SourceManager) (Tokens : List HighlightingToken)
    (Name : DeclarationName) (NameLoc : SourceLocation) (decls : List CDecl) :
    List HighlightingToken :=
  if canHighlightName Name then
    addToken SM Tokens NameLoc ((kindForCandidateDecls decls).getD HighlightingKind.DependentName)
  else
    Tokens

/-- `VisitUsingDecl` (SemanticHighlighting.cpp:202-206): add a token only
when the shadow set classifies to a single kind. -/
def VisitUsingDecl (SM : SourceManager) (Tokens : List HighlightingToken)
    (Loc : SourceLocation) (shadows : List CDecl) : List HighlightingToken :=
  match kindForCandidateDecls shadows with
  | some K => addToken SM Tokens Loc K
  | none => Tokens

/-! ## Theorems -/

theorem dropWhileLine_length_le (L : Nat) (xs : List HighlightingToken) :
    (xs.dropWhile fun t => decide (t.R.start.line = L)).length ≤ xs.length :=
  (List.dropWhile_sublist _).length_le

theorem dropWhileLine_length_lt (L : Nat) (x : HighlightingToken) (xs : List HighlightingToken)
    (hx : x.R.start.line = L) :
    ((x :: xs).dropWhile fun t => decide (t.R.start.line = L)).length < (x :: xs).length := by
  rw [List.dropWhile_cons_of_pos (by simp [hx])]
  have h := dropWhileLine_length_le L xs
  simp only [List.length_cons]
  omega

theorem diffGo_nil : diffGo [] [] = [] := by
  rw [diffGo]
  simp

theorem diffGo_unfold (new old : List HighlightingToken) (h : ¬ (new = [] ∧ old = [])) :
    diffGo new old =
      (if (new.takeWhile fun t => decide (t.R.start.line = nextLineNumber new old)) =
          (old.takeWhile fun t => decide (t.R.start.line = nextLineNumber new old))
       then diffGo (new.dropWhile fun t => decide (t.R.start.line = nextLineNumber new old))
                   (old.dropWhile fun t => decide (t.R.start.line = nextLineNumber new old))
       else ⟨nextLineNumber new old,
             new.takeWhile fun t => decide (t.R.start.line = nextLineNumber new old)⟩ ::
            diffGo (new.dropWhile fun t => decide (t.R.start.line = nextLineNumber new old))
                   (old.dropWhile fun t => decide (t.R.start.line = nextLineNumber new old))) := by
  rw [diffGo, if_neg h]

theorem diffGo_self (S : List HighlightingToken) : diffGo S S = [] := by
  have main : ∀ (n : Nat) (S : List HighlightingToken), S.length ≤ n → diffGo S S = [] := by
    intro n
    induction n with
    | zero =>
      intro S hS
      have hnil : S = [] := List.length_eq_zero.mp (Nat.le_zero.mp hS)
      subst hnil
      exact diffGo_nil
    | succ n ih =>
      intro S hS
      rcases S with _ | ⟨s, ss⟩
      · exact diffGo_nil
      · rw [diffGo_unfold _ _ (by simp), if_pos rfl]
        apply ih
        have hlt := dropWhileLine_length_lt (nextLineNumber (s :: ss) (s :: ss)) s ss
          (by simp [nextLineNumber])
        simp only [List.length_cons] at *
        omega
  exact main S.length S le_rfl

/-- C4: for every canonical (sorted) token set `S`, `diffHighlightings S S`
returns the empty list of changed lines. -/
theorem diffHighlightings_self_eq_nil (S : List HighlightingToken)
    (_hS : S.Pairwise tokLE) : diffHighlightings S S = [] := by
  unfold diffHighlightings
  by_cases h : S = [] ∧ S = []
  · rw [if_pos h]
  · rw [if_neg h]
    simp only [if_pos rfl]
    exact diffGo_self _

/-- Witness for C4 at a concrete sorted token set. -/
theorem diffHighlightings_self_eq_nil_witness :
    diffHighlightings [⟨HighlightingKind.Variable, ⟨⟨1, 2⟩, ⟨1, 5⟩⟩⟩]
      [⟨HighlightingKind.Variable, ⟨⟨1, 2⟩, ⟨1, 5⟩⟩⟩] = [] :=
  diffHighlightings_self_eq_nil [⟨HighlightingKind.Variable, ⟨⟨1, 2⟩, ⟨1, 5⟩⟩⟩] (by decide)

theorem kindForCandidateDeclsLoop_some_iff (Decls : List CDecl) :
    ∀ (r K : HighlightingKind),
      kindForCandidateDeclsLoop (some r) Decls = some K ↔
        (K = r ∧ ∀ d ∈ Decls, kindForDecl d = some r) := by
  induction Decls with
  | nil =>
    intro r K
    simp only [kindForCandidateDeclsLoop, List.not_mem_nil, false_implies, implies_true,
      and_true, Option.some.injEq]
    exact ⟨fun h => h.symm, fun h => h.symm⟩
  | cons d ds ih =>
    intro r K
    simp only [kindForCandidateDeclsLoop]
    cases hk : kindForDecl d with
    | none =>
      simp only [List.mem_cons]
      constructor
      · intro h; exact absurd h (by simp)
      · rintro ⟨-, hall⟩
        have := hall d (Or.inl rfl)
        rw [hk] at this
        exact absurd this (by simp)
    | some k =>
      dsimp only
      by_cases hkr : k = r
      · subst hkr
        rw [if_neg (by simp)]
        rw [ih k K]
        simp only [List.mem_cons]
        constructor
        · rintro ⟨rfl, hall⟩
          refine ⟨rfl, ?_⟩
          rintro d' (rfl | hd')
          · exact hk
          · exact hall d' hd'
        · rintro ⟨rfl, hall⟩
          exact ⟨rfl, fun d' hd' => hall d' (Or.inr hd')⟩
      · rw [if_pos hkr]
        simp only [List.mem_cons]
        constructor
        · intro h; exact absurd h (by simp)
        · rintro ⟨rfl, hall⟩
          have := hall d (Or.inl rfl)
          rw [hk] at this
          exact absurd (Option.some.inj this) hkr

/-- C6: for every non-empty candidate set, `kindForCandidateDecls` returns
a kind `K` exactly when every candidate classifies (via `kindForDecl`) to
that identical `K`; an unclassifiable candidate or any disagreement makes
the whole set unclassifiable (`none`). -/
theorem kindForCandidateDecls_spec (Decls : List CDecl) (hne : Decls ≠ []) :
    (∀ K, kindForCandidateDecls Decls = some K ↔ ∀ d ∈ Decls, kindForDecl d = some K) ∧
    (kindForCandidateDecls Decls = none ↔ ¬ ∃ K, ∀ d ∈ Decls, kindForDecl d = some K) := by
  have hsome : ∀ K, kindForCandidateDecls Decls = some K ↔
      ∀ d ∈ Decls, kindForDecl d = some K := by
    intro K
    rcases Decls with _ | ⟨d, ds⟩
    · exact absurd rfl hne
    · simp only [kindForCandidateDecls, kindForCandidateDeclsLoop]
      cases hk : kindForDecl d with
      | none =>
        simp only [List.mem_cons]
        constructor
        · intro h; exact absurd h (by simp)
        · intro hall
          have := hall d (Or.inl rfl)
          rw [hk] at this
          exact absurd this (by simp)
      | some k =>
        dsimp only
        rw [kindForCandidateDeclsLoop_some_iff ds k K]
        simp only [List.mem_cons]
        constructor
        · rintro ⟨rfl, hall⟩
          rintro d' (rfl | hd')
          · exact hk
          · exact hall d' hd'
        · intro hall
          have hdK := hall d (Or.inl rfl)
          rw [hk] at hdK
          have : k = K := Option.some.inj hdK
          subst this
          exact ⟨rfl, fun d' hd' => hall d' (Or.inr hd')⟩
  refine ⟨hsome, ?_⟩
  cases h : kindForCandidateDecls Decls with
  | none =>
    simp only [true_iff]
    rintro ⟨K, hK⟩
    rw [(hsome K).mpr hK] at h
    exact absurd h (by simp)
  | some k =>
    constructor
    · intro hfalse; exact absurd hfalse (by simp)
    · intro hno
      exact absurd ⟨k, (hsome k).mp h⟩ hno

/-- Witness for C6: a uniform overload set classifies to its common kind
(`Method`), a mixed set (`Method` vs `Field`) is unclassifiable. -/
theorem kindForCandidateDecls_spec_witness :
    kindForCandidateDecls [CDecl.cxxMethod false, CDecl.cxxMethod false] =
      some HighlightingKind.Method ∧
    kindForCandidateDecls [CDecl.cxxMethod false, CDecl.fieldDecl] = none := by
  constructor
  · exact ((kindForCandidateDecls_spec [CDecl.cxxMethod false, CDecl.cxxMethod false]
      (List.cons_ne_nil _ _)).1 HighlightingKind.Method).mpr (by decide)
  · refine (kindForCandidateDecls_spec [CDecl.cxxMethod false, CDecl.fieldDecl]
      (List.cons_ne_nil _ _)).2.mpr ?_
    rintro ⟨K, hK⟩
    have h1 := hK (CDecl.cxxMethod false) (by simp)
    have h2 := hK CDecl.fieldDecl (by simp)
    rw [show kindForDecl (CDecl.cxxMethod false) = some HighlightingKind.Method from rfl] at h1
    rw [show kindForDecl CDecl.fieldDecl = some HighlightingKind.Field from rfl] at h2
    rw [← Option.some.inj h1] at h2
    exact absurd (Option.some.inj h2) (by decide)

/-- C9: the empty candidate set is unclassifiable, so an overloaded
reference with no candidates is emitted through `addToken` with the
`DependentName` fallback, and a using declaration with an empty shadow set
emits no token at all. -/
theorem kindForCandidateDecls_empty_spec :
    kindForCandidateDecls [] = none ∧
    (∀ (SM : SourceManager) (Tokens : List HighlightingToken) (Name : DeclarationName)
        (NameLoc : SourceLocation), canHighlightName Name = true →
      VisitOverloadExpr SM Tokens Name NameLoc [] =
        addToken SM Tokens NameLoc HighlightingKind.DependentName) ∧
    (∀ (SM : SourceManager) (Tokens : List HighlightingToken) (Loc : SourceLocation),
      VisitUsingDecl SM Tokens Loc [] = Tokens) := by
  refine ⟨rfl, ?_, ?_⟩
  · intro SM Tokens Name NameLoc hname
    unfold VisitOverloadExpr
    rw [if_pos hname]
    rfl
  · intro SM Tokens Loc
    rfl

/-- Witness for C9 at a concrete source manager, name and location: the
empty overload set really appends a `DependentName` token. -/
theorem kindForCandidateDecls_empty_spec_witness :
    VisitOverloadExpr
        ⟨fun _ => true, fun l => l, fun _ => true, fun _ => some ⟨⟨0, 0⟩, ⟨0, 1⟩⟩⟩
        [] ⟨DeclarationNameKind.otherName, some "x"⟩ ⟨false, false, 0⟩ [] =
      addToken ⟨fun _ => true, fun l => l, fun _ => true, fun _ => some ⟨⟨0, 0⟩, ⟨0, 1⟩⟩⟩
        [] ⟨false, false, 0⟩ HighlightingKind.DependentName ∧
    addToken ⟨fun _ => true, fun l => l, fun _ => true, fun _ => some ⟨⟨0, 0⟩, ⟨0, 1⟩⟩⟩
        [] ⟨false, false, 0⟩ HighlightingKind.DependentName =
      [⟨HighlightingKind.DependentName, ⟨⟨0, 0⟩, ⟨0, 1⟩⟩⟩] := by
  constructor
  · exact kindForCandidateDecls_empty_spec.2.1
      ⟨fun _ => true, fun l => l, fun _ => true, fun _ => some ⟨⟨0, 0⟩, ⟨0, 1⟩⟩⟩
      [] ⟨DeclarationNameKind.otherName, some "x"⟩ ⟨false, false, 0⟩ rfl
  · rfl

/-- C7: a macro-expansion location that is not a macro-argument expansion,
or a location whose (spelling-rewritten) position lies outside the primary
file, adds no token: `addToken` leaves the stream unchanged (and the
traversal continues — `addToken` is total). -/
theorem addToken_filters (SM : SourceManager) (Tokens : List HighlightingToken)
    (Loc : SourceLocation) (Kind : HighlightingKind)
    (h : (Loc.isMacroID = true ∧ SM.isMacroArgExpansion Loc = false) ∨
         SM.isInsideMainFile (if Loc.isMacroID then SM.getSpellingLoc Loc else Loc) = false) :
    addToken SM Tokens Loc Kind = Tokens := by
  unfold addToken
  by_cases hinv : Loc.isInvalid
  · rw [if_pos hinv]
  · rw [if_neg hinv]
    rcases h with ⟨hmac, harg⟩ | hout
    · rw [if_pos ⟨hmac, by simp [harg]⟩]
    · by_cases hfilt : Loc.isMacroID ∧ ¬ SM.isMacroArgExpansion Loc
      · rw [if_pos hfilt]
      · rw [if_neg hfilt]
        simp only
        rw [if_pos (by simp [hout])]

/-- Witness for C7: a concrete macro-body (non-argument) location is
filtered. -/
theorem addToken_filters_witness :
    addToken ⟨fun _ => false, fun l => l, fun _ => true, fun _ => some ⟨⟨0, 0⟩, ⟨0, 1⟩⟩⟩
      [⟨HighlightingKind.Class, ⟨⟨2, 0⟩, ⟨2, 3⟩⟩⟩] ⟨false, true, 7⟩ HighlightingKind.Variable =
      [⟨HighlightingKind.Class, ⟨⟨2, 0⟩, ⟨2, 3⟩⟩⟩] :=
  addToken_filters
    ⟨fun _ => false, fun l => l, fun _ => true, fun _ => some ⟨⟨0, 0⟩, ⟨0, 1⟩⟩⟩
    [⟨HighlightingKind.Class, ⟨⟨2, 0⟩, ⟨2, 3⟩⟩⟩] ⟨false, true, 7⟩ HighlightingKind.Variable
    (Or.inl ⟨rfl, rfl⟩)

/-- C8: a typedef/alias-like declaration always classifies: to the kind of
its underlying type when `kindForType` succeeds, and to the generic
`Typedef` kind otherwise — never to "no kind". -/
theorem kindForDecl_typedef_total (u : CType) :
    (∀ K, kindForType u = some K → kindForDecl (CDecl.typedefName u) = some K) ∧
    (kindForType u = none →
      kindForDecl (CDecl.typedefName u) = some HighlightingKind.Typedef) ∧
    kindForDecl (CDecl.typedefName u) ≠ none := by
  have hunfold : kindForDecl (CDecl.typedefName u) =
      (match kindForType u with
       | some K => some K
       | none => some HighlightingKind.Typedef) := rfl
  cases hu : kindForType u with
  | none =>
    rw [hunfold, hu]
    exact ⟨fun K hK => absurd hK (by simp), fun _ => rfl, by simp⟩
  | some k =>
    rw [hunfold, hu]
    refine ⟨fun K hK => by rw [Option.some.inj hK], fun hnone => absurd hnone (by simp), by simp⟩

/-- Witness for C8: a typedef of a builtin type classifies as `Primitive`,
a typedef of an unclassifiable type falls back to `Typedef`. -/
theorem kindForDecl_typedef_total_witness :
    kindForDecl (CDecl.typedefName CType.builtin) = some HighlightingKind.Primitive ∧
    kindForDecl (CDecl.typedefName CType.otherType) = some HighlightingKind.Typedef :=
  ⟨(kindForDecl_typedef_total CType.builtin).1 HighlightingKind.Primitive rfl,
   (kindForDecl_typedef_total CType.otherType).2.1 rfl⟩

theorem foldl_append_tokenBytes (ts : List HighlightingToken) :
    ∀ acc : List Nat,
      ts.foldl (fun OS Token => OS ++ tokenBytes Token) acc = acc ++ (ts.map tokenBytes).flatten := by
  induction ts with
  | nil => intro acc; simp
  | cons t ts ih => intro acc; simp [ih, List.append_assoc]

theorem lineByteTokens_eq_join (Tokens : List HighlightingToken) :
    lineByteTokens Tokens = (Tokens.map tokenBytes).flatten := by
  unfold lineByteTokens
  rw [foldl_append_tokenBytes]
  simp

theorem uint16OfInt_lt (i : Int) : uint16OfInt i < 65536 := by
  unfold uint16OfInt
  have h1 : (0 : Int) ≤ i % 65536 := Int.emod_nonneg _ (by norm_num)
  have h2 : i % 65536 < 65536 := Int.emod_lt_of_pos _ (by norm_num)
  omega

theorem tokenBytes_fields (t : HighlightingToken) :
    (tokenBytes t).length = 8 ∧
    (tokenBytes t).take 4 = write32be t.R.start.character ∧
    ((tokenBytes t).drop 4).take 2 =
      write16be (uint16OfInt ((t.R.end_.character : Int) - (t.R.start.character : Int))) ∧
    (tokenBytes t).drop 6 = write16be (kindOrd t.Kind) ∧
    readBE ((tokenBytes t).take 4) = t.R.start.character % 4294967296 ∧
    readBE (((tokenBytes t).drop 4).take 2) =
      uint16OfInt ((t.R.end_.character : Int) - (t.R.start.character : Int)) ∧
    readBE ((tokenBytes t).drop 6) = kindOrd t.Kind := by
  obtain ⟨k, ⟨⟨sl, sc⟩, ⟨el, ec⟩⟩⟩ := t
  have hv := uint16OfInt_lt ((ec : Int) - (sc : Int))
  have hk : kindOrd k < 65536 := by cases k <;> decide
  refine ⟨rfl, rfl, rfl, rfl, ?_, ?_, ?_⟩ <;>
    · simp only [tokenBytes, write32be, write16be, readBE, List.cons_append, List.nil_append,
        List.take, List.drop, List.foldl]
      omega

/-- C5: per token the wire encoder writes exactly one 8-byte record —
4 bytes big-endian start column, then 2 bytes big-endian length
(end column − start column, as converted to `uint16_t`), then 2 bytes
big-endian kind ordinal — records concatenated per line in token order;
and the empty changed-line sequence encodes to the empty output list
(in general, output entries are exactly one per input line, so no
empty-string entries appear for an empty input). -/
theorem toSemanticHighlightingInformation_layout :
    (∀ Tokens : List HighlightingToken,
      lineByteTokens Tokens = (Tokens.map tokenBytes).flatten) ∧
    (∀ t : HighlightingToken,
      (tokenBytes t).length = 8 ∧
      (tokenBytes t).take 4 = write32be t.R.start.character ∧
      ((tokenBytes t).drop 4).take 2 =
        write16be (uint16OfInt ((t.R.end_.character : Int) - (t.R.start.character : Int))) ∧
      (tokenBytes t).drop 6 = write16be (kindOrd t.Kind) ∧
      readBE ((tokenBytes t).take 4) = t.R.start.character % 4294967296 ∧
      readBE (((tokenBytes t).drop 4).take 2) =
        uint16OfInt ((t.R.end_.character : Int) - (t.R.start.character : Int)) ∧
      readBE ((tokenBytes t).drop 6) = kindOrd t.Kind) ∧
    toSemanticHighlightingInformation [] = [] ∧
    (∀ ds : List LineHighlightings,
      toSemanticHighlightingInformation ds =
        ds.map fun Line => ⟨Line.Line, encodeBase64 (lineByteTokens Line.Tokens)⟩) := by
  refine ⟨lineByteTokens_eq_join, tokenBytes_fields, rfl, ?_⟩
  intro ds
  unfold toSemanticHighlightingInformation
  rcases ds with _ | ⟨d, ds⟩
  · rfl
  · rw [if_neg (by simp)]

/-- C10: the 2-byte length field of every encoded token equals
(end column − start column) reduced modulo 2^16 — the `int` difference
converted to `uint16_t` — and for a token ending on a later line with a
smaller end column the subtraction wraps around (length 65529 for
columns 10 → 3) instead of failing or being clamped. -/
theorem lengthField_mod_wraps :
    (∀ t : HighlightingToken,
      readBE (((tokenBytes t).drop 4).take 2) =
        (((t.R.end_.character : Int) - (t.R.start.character : Int)) % 65536).toNat) ∧
    readBE (((tokenBytes ⟨HighlightingKind.Variable, ⟨⟨0, 10⟩, ⟨2, 3⟩⟩⟩).drop 4).take 2) =
      65529 ∧
    (((3 : Int) - (10 : Int)) % 65536).toNat = 65529 := by
  refine ⟨?_, by decide, by decide⟩
  intro t
  exact (tokenBytes_fields t).2.2.2.2.2.1

theorem tokLE_range_cases {a b : HighlightingToken} (h : tokLE a b) :
    rangeLT a.R b.R ∨ a.R = b.R := by
  obtain ⟨ka, ⟨⟨a1, a2⟩, ⟨a3, a4⟩⟩⟩ := a
  obtain ⟨kb, ⟨⟨b1, b2⟩, ⟨b3, b4⟩⟩⟩ := b
  simp only [tokLE] at h
  simp only [rangeLT, SourceRange.mk.injEq, Position.mk.injEq]
  omega

theorem rangeLT_ne {r1 r2 : SourceRange} (h : rangeLT r1 r2) : r1 ≠ r2 := by
  obtain ⟨⟨a1, a2⟩, ⟨a3, a4⟩⟩ := r1
  obtain ⟨⟨b1, b2⟩, ⟨b3, b4⟩⟩ := r2
  simp only [rangeLT] at h
  simp only [ne_eq, SourceRange.mk.injEq, Position.mk.injEq]
  omega

theorem rangeLT_of_rangeLT_tokLE {r : SourceRange} {b c : HighlightingToken}
    (h1 : rangeLT r b.R) (h2 : tokLE b c) : rangeLT r c.R := by
  rcases tokLE_range_cases h2 with h3 | h3
  · obtain ⟨⟨a1, a2⟩, ⟨a3, a4⟩⟩ := r
    obtain ⟨kb, ⟨⟨b1, b2⟩, ⟨b3, b4⟩⟩⟩ := b
    obtain ⟨kc, ⟨⟨c1, c2⟩, ⟨c3, c4⟩⟩⟩ := c
    simp only [rangeLT] at *
    omega
  · rw [← h3]
    exact h1

theorem dropWhile_head_false {α : Type} (p : α → Bool) :
    ∀ (l : List α) (y : α) (ys : List α), l.dropWhile p = y :: ys → p y = false := by
  intro l
  induction l with
  | nil => intro y ys h; simp [List.dropWhile] at h
  | cons a l ih =>
    intro y ys h
    by_cases hpa : p a
    · rw [List.dropWhile_cons_of_pos hpa] at h
      exact ih _ _ h
    · rw [List.dropWhile_cons_of_neg hpa] at h
      injection h with h1 h2
      subst h1
      simpa using hpa

theorem two_le_length_of_mem_ne {α : Type} {a b : α} {l : List α}
    (ha : a ∈ l) (hb : b ∈ l) (hne : a ≠ b) : 2 ≤ l.length := by
  cases l with
  | nil => cases ha
  | cons x xs =>
    cases xs with
    | nil =>
      simp only [List.mem_singleton] at ha hb
      exact absurd (ha.trans hb.symm) hne
    | cons y ys =>
      simp only [List.length_cons]
      omega

theorem removeConflicting_cons (t : HighlightingToken) (ts : List HighlightingToken) :
    removeConflicting (t :: ts) =
      if (ts.takeWhile fun x => decide (x.R = t.R)).isEmpty then
        t :: removeConflicting (ts.dropWhile fun x => decide (x.R = t.R))
      else
        removeConflicting (ts.dropWhile fun x => decide (x.R = t.R)) := by
  rw [removeConflicting]

theorem removeConflicting_eq_filter :
    ∀ (l : List HighlightingToken), l.Pairwise tokLE →
      removeConflicting l =
        l.filter fun t => decide (l.countP (fun x => decide (x.R = t.R)) = 1) := by
  have main : ∀ (n : Nat) (l : List HighlightingToken), l.length ≤ n → l.Pairwise tokLE →
      removeConflicting l =
        l.filter fun t => decide (l.countP (fun x => decide (x.R = t.R)) = 1) := by
    intro n
    induction n with
    | zero =>
      intro l hl _
      have hnil : l = [] := List.length_eq_zero.mp (Nat.le_zero.mp hl)
      subst hnil
      simp [removeConflicting]
    | succ n ih =>
      intro l hlen hsort
      rcases l with _ | ⟨t, ts⟩
      · simp [removeConflicting]
      · obtain ⟨hhead, hts⟩ := List.pairwise_cons.mp hsort
        have hsplit := List.takeWhile_append_dropWhile
          (p := fun x => decide (x.R = t.R)) (l := ts)
        have hrest_sorted : (ts.dropWhile fun x => decide (x.R = t.R)).Pairwise tokLE :=
          hts.sublist (List.dropWhile_sublist _)
        have hrun : ∀ x ∈ ts.takeWhile fun x => decide (x.R = t.R), x.R = t.R := by
          intro x hx
          have hd := List.mem_takeWhile_imp (p := fun y : HighlightingToken => decide (y.R = t.R)) hx
          exact of_decide_eq_true hd
        have hrest : ∀ x ∈ ts.dropWhile fun x => decide (x.R = t.R), rangeLT t.R x.R := by
          intro x hx
          rcases hdrop : ts.dropWhile fun x => decide (x.R = t.R) with _ | ⟨y, ys⟩
          · rw [hdrop] at hx
            cases hx
          · have hy_false := dropWhile_head_false _ ts y ys hdrop
            have hyR : y.R ≠ t.R := by
              intro he
              rw [he] at hy_false
              simp at hy_false
            have hy_mem : y ∈ ts := (List.dropWhile_sublist _).subset
              (by rw [hdrop]; exact List.mem_cons_self y ys)
            have hrange_ty : rangeLT t.R y.R :=
              (tokLE_range_cases (hhead y hy_mem)).resolve_right fun he => hyR he.symm
            rw [hdrop] at hx
            rcases List.mem_cons.mp hx with rfl | hx2
            · exact hrange_ty
            · have hsorted_rest : (y :: ys).Pairwise tokLE := by
                rw [← hdrop]
                exact hrest_sorted
              exact rangeLT_of_rangeLT_tokLE hrange_ty
                ((List.pairwise_cons.mp hsorted_rest).1 x hx2)
        have hrestR : ∀ x ∈ ts.dropWhile fun x => decide (x.R = t.R), x.R ≠ t.R := by
          intro x hx he
          exact rangeLT_ne (hrest x hx) he.symm
        have hcount : (t :: ts).countP (fun x => decide (x.R = t.R)) =
            1 + (ts.takeWhile fun x => decide (x.R = t.R)).length := by
          rw [List.countP_cons]
          conv_lhs => rw [← hsplit]
          rw [List.countP_append]
          have h1 : (ts.takeWhile fun x => decide (x.R = t.R)).countP
              (fun x => decide (x.R = t.R)) =
              (ts.takeWhile fun x => decide (x.R = t.R)).length := by
            apply List.countP_eq_length.mpr
            intro a ha
            exact List.mem_takeWhile_imp (p := fun y : HighlightingToken => decide (y.R = t.R)) ha
          have h2 : (ts.dropWhile fun x => decide (x.R = t.R)).countP
              (fun x => decide (x.R = t.R)) = 0 := by
            apply List.countP_eq_zero.mpr
            intro a ha
            simp only [decide_eq_true_eq]
            exact hrestR a ha
          rw [h1, h2]
          simp
          omega
        have hcount_rest : ∀ x ∈ ts.dropWhile fun x => decide (x.R = t.R),
            (t :: ts).countP (fun y => decide (y.R = x.R)) =
              (ts.dropWhile fun x => decide (x.R = t.R)).countP
                (fun y => decide (y.R = x.R)) := by
          intro x hx
          have hxt : t.R ≠ x.R := rangeLT_ne (hrest x hx)
          rw [List.countP_cons]
          conv_lhs => rw [← hsplit]
          rw [List.countP_append]
          have hgone : (ts.takeWhile fun x => decide (x.R = t.R)).countP
              (fun y => decide (y.R = x.R)) = 0 := by
            apply List.countP_eq_zero.mpr
            intro a ha
            simp only [decide_eq_true_eq]
            intro he
            rw [hrun a ha] at he
            exact hxt he
          rw [hgone]
          simp [hxt]
        rw [removeConflicting_cons]
        cases hempty : (ts.takeWhile fun x => decide (x.R = t.R)).isEmpty with
        | true =>
          rw [if_pos rfl]
          have hrun_nil : (ts.takeWhile fun x => decide (x.R = t.R)) = [] :=
            List.isEmpty_iff.mp hempty
          have hrest_ts : (ts.dropWhile fun x => decide (x.R = t.R)) = ts := by
            conv_rhs => rw [← hsplit]
            rw [hrun_nil, List.nil_append]
          have hPt : (t :: ts).countP (fun x => decide (x.R = t.R)) = 1 := by
            rw [hcount, hrun_nil]
            rfl
          rw [List.filter_cons_of_pos (by simp only [decide_eq_true_eq]; exact hPt)]
          rw [hrest_ts]
          rw [ih ts (by simp only [List.length_cons] at hlen; omega) hts]
          congr 1
          apply List.filter_congr
          intro x hx
          have hx_rest : x ∈ ts.dropWhile fun x => decide (x.R = t.R) := by
            rw [hrest_ts]
            exact hx
          have hcr := hcount_rest x hx_rest
          rw [hrest_ts] at hcr
          rw [hcr]
        | false =>
          rw [if_neg (by simp)]
          have hrunlen : 1 ≤ (ts.takeWhile fun x => decide (x.R = t.R)).length := by
            rcases hE : ts.takeWhile fun x => decide (x.R = t.R) with _ | ⟨y, ys⟩
            · rw [hE] at hempty
              exact Bool.noConfusion hempty
            · rw [hE]
              simp only [List.length_cons]
              omega
          have hPt : ¬ ((t :: ts).countP (fun x => decide (x.R = t.R)) = 1) := by
            rw [hcount]
            omega
          rw [List.filter_cons_of_neg (by simp only [decide_eq_true_eq]; exact hPt)]
          have hfilter_split : ∀ P : HighlightingToken → Bool,
              ts.filter P = (ts.takeWhile fun x => decide (x.R = t.R)).filter P ++
                (ts.dropWhile fun x => decide (x.R = t.R)).filter P := by
            intro P
            conv_lhs => rw [← hsplit]
            exact List.filter_append _ _
          rw [hfilter_split]
          have hrun_filter : (ts.takeWhile fun x => decide (x.R = t.R)).filter
              (fun u => decide ((t :: ts).countP (fun x => decide (x.R = u.R)) = 1)) = [] := by
            apply List.filter_eq_nil_iff.mpr
            intro a ha
            simp only [decide_eq_true_eq]
            have hsame : (t :: ts).countP (fun x => decide (x.R = a.R)) =
                (t :: ts).countP (fun x => decide (x.R = t.R)) := by
              rw [hrun a ha]
            rw [hsame, hcount]
            omega
          rw [hrun_filter, List.nil_append]
          have hlen_rest : (ts.dropWhile fun x => decide (x.R = t.R)).length ≤ n := by
            have hd := (List.dropWhile_sublist
              (fun x => decide (x.R = t.R)) (l := ts)).length_le
            simp only [List.length_cons] at hlen
            omega
          rw [ih _ hlen_rest hrest_sorted]
          apply List.filter_congr
          intro x hx
          rw [hcount_rest x hx]
  intro l hsort
  exact main l.length l le_rfl hsort

theorem dedupAdjacent_sublist : ∀ l : List HighlightingToken,
    List.Sublist (dedupAdjacent l) l
  | [] => by simp [dedupAdjacent]
  | [a] => by simp [dedupAdjacent]
  | a :: b :: l => by
      rw [dedupAdjacent]
      by_cases hab : a = b
      · rw [if_pos hab]
        exact (dedupAdjacent_sublist (b :: l)).trans (List.sublist_cons_self a (b :: l))
      · rw [if_neg hab]
        exact List.Sublist.cons₂ a (dedupAdjacent_sublist (b :: l))

theorem dedupSorted_pairwise (astTokens : List HighlightingToken)
    (macroRanges : List SourceRange) :
    (dedupSorted astTokens macroRanges).Pairwise tokLE :=
  (List.sorted_insertionSort tokLE (rawTokens astTokens macroRanges)).sublist
    (dedupAdjacent_sublist _)

/-- C1: in the Token Collector's output there is at most one token per
distinct source range: a token of the sorted, exact-duplicate-free stream
whose range is shared by at least one other token (count ≥ 2) never
appears in `collectTokens`' output, a token whose range is unique
(count = 1) is preserved, and any two output tokens with equal ranges are
equal. -/
theorem collectTokens_conflict_free (astTokens : List HighlightingToken)
    (macroRanges : List SourceRange) :
    (∀ t ∈ dedupSorted astTokens macroRanges,
        2 ≤ (dedupSorted astTokens macroRanges).countP (fun x => decide (x.R = t.R)) →
        t ∉ collectTokens astTokens macroRanges) ∧
    (∀ t ∈ dedupSorted astTokens macroRanges,
        (dedupSorted astTokens macroRanges).countP (fun x => decide (x.R = t.R)) = 1 →
        t ∈ collectTokens astTokens macroRanges) ∧
    (∀ t u, t ∈ collectTokens astTokens macroRanges →
        u ∈ collectTokens astTokens macroRanges → t.R = u.R → t = u) := by
  have hchar : collectTokens astTokens macroRanges =
      (dedupSorted astTokens macroRanges).filter
        (fun t => decide ((dedupSorted astTokens macroRanges).countP
          (fun x => decide (x.R = t.R)) = 1)) :=
    removeConflicting_eq_filter _ (dedupSorted_pairwise astTokens macroRanges)
  refine ⟨?_, ?_, ?_⟩
  · intro t ht hcnt hmem
    rw [hchar] at hmem
    have hP := (List.mem_filter.mp hmem).2
    simp only [decide_eq_true_eq] at hP
    omega
  · intro t ht hcnt
    rw [hchar]
    exact List.mem_filter.mpr ⟨ht, by simp only [decide_eq_true_eq]; exact hcnt⟩
  · intro t u htm hum hR
    by_contra hne
    rw [hchar] at htm hum
    obtain ⟨htD, htP⟩ := List.mem_filter.mp htm
    obtain ⟨huD, -⟩ := List.mem_filter.mp hum
    simp only [decide_eq_true_eq] at htP
    have h2 : 2 ≤ (dedupSorted astTokens macroRanges).countP
        (fun x => decide (x.R = t.R)) := by
      rw [List.countP_eq_length_filter]
      have htf : t ∈ (dedupSorted astTokens macroRanges).filter
          (fun x => decide (x.R = t.R)) :=
        List.mem_filter.mpr ⟨htD, by simp⟩
      have huf : u ∈ (dedupSorted astTokens macroRanges).filter
          (fun x => decide (x.R = t.R)) :=
        List.mem_filter.mpr ⟨huD, by simp [hR]⟩
      exact two_le_length_of_mem_ne htf huf hne
    omega

/-- Witness for C1: two conflicting tokens (same range, different kinds)
both vanish from the collector output; a third token at its own range
survives. -/
theorem collectTokens_conflict_free_witness :
    (⟨HighlightingKind.Variable, ⟨⟨0, 0⟩, ⟨0, 1⟩⟩⟩ : HighlightingToken) ∉
      collectTokens [⟨HighlightingKind.Variable, ⟨⟨0, 0⟩, ⟨0, 1⟩⟩⟩,
        ⟨HighlightingKind.Function, ⟨⟨0, 0⟩, ⟨0, 1⟩⟩⟩,
        ⟨HighlightingKind.Class, ⟨⟨0, 2⟩, ⟨0, 3⟩⟩⟩] [] ∧
    (⟨HighlightingKind.Class, ⟨⟨0, 2⟩, ⟨0, 3⟩⟩⟩ : HighlightingToken) ∈
      collectTokens [⟨HighlightingKind.Variable, ⟨⟨0, 0⟩, ⟨0, 1⟩⟩⟩,
        ⟨HighlightingKind.Function, ⟨⟨0, 0⟩, ⟨0, 1⟩⟩⟩,
        ⟨HighlightingKind.Class, ⟨⟨0, 2⟩, ⟨0, 3⟩⟩⟩] [] := by
  constructor
  · exact (collectTokens_conflict_free _ _).1 _ (by decide) (by decide)
  · exact (collectTokens_conflict_free _ _).2.1 _ (by decide) (by decide)

theorem tokLE_line {a b : HighlightingToken} (h : tokLE a b) :
    a.R.start.line ≤ b.R.start.line := by
  obtain ⟨ka, ⟨⟨a1, a2⟩, ⟨a3, a4⟩⟩⟩ := a
  obtain ⟨kb, ⟨⟨b1, b2⟩, ⟨b3, b4⟩⟩⟩ := b
  simp only [tokLE] at h
  simp only
  omega

theorem takeWhileLine_eq_lineFilter (L : Nat) :
    ∀ (S : List HighlightingToken), S.Pairwise tokLE → (∀ t ∈ S, L ≤ t.R.start.line) →
      S.takeWhile (fun t => decide (t.R.start.line = L)) = lineFilter S L := by
  intro S
  induction S with
  | nil => intro _ _; rfl
  | cons x xs ih =>
    intro hs hlb
    obtain ⟨hhead, hxs⟩ := List.pairwise_cons.mp hs
    by_cases hx : x.R.start.line = L
    · rw [List.takeWhile_cons_of_pos (by simp [hx])]
      unfold lineFilter
      rw [List.filter_cons_of_pos (by simp [hx])]
      have := ih hxs fun t ht => hlb t (List.mem_cons_of_mem x ht)
      unfold lineFilter at this
      rw [this]
    · rw [List.takeWhile_cons_of_neg (by simp [hx])]
      unfold lineFilter
      rw [List.filter_cons_of_neg (by simp [hx])]
      symm
      apply List.filter_eq_nil_iff.mpr
      intro a ha
      simp only [decide_eq_true_eq]
      have h1 : L ≤ x.R.start.line := hlb x (List.mem_cons_self x xs)
      have h2 : x.R.start.line ≤ a.R.start.line := tokLE_line (hhead a ha)
      omega

theorem lineFilter_dropWhile_ne (L L' : Nat) (hne : L' ≠ L) (S : List HighlightingToken) :
    lineFilter S L' = lineFilter (S.dropWhile fun t => decide (t.R.start.line = L)) L' := by
  unfold lineFilter
  conv_lhs => rw [← List.takeWhile_append_dropWhile
    (p := fun t => decide (t.R.start.line = L)) (l := S)]
  rw [List.filter_append]
  have hgone : (S.takeWhile fun t => decide (t.R.start.line = L)).filter
      (fun t => decide (t.R.start.line = L')) = [] := by
    apply List.filter_eq_nil_iff.mpr
    intro a ha
    simp only [decide_eq_true_eq]
    have hd := List.mem_takeWhile_imp
      (p := fun u : HighlightingToken => decide (u.R.start.line = L)) ha
    have : a.R.start.line = L := of_decide_eq_true hd
    omega
  rw [hgone, List.nil_append]

theorem nextLineNumber_le_left (new old : List HighlightingToken) (hs : new.Pairwise tokLE) :
    ∀ t ∈ new, nextLineNumber new old ≤ t.R.start.line := by
  cases new with
  | nil => intro t ht; cases ht
  | cons n nt =>
    have hn : nextLineNumber (n :: nt) old ≤ n.R.start.line := by
      cases old <;> simp [nextLineNumber]
    intro t ht
    rcases List.mem_cons.mp ht with rfl | ht2
    · exact hn
    · exact hn.trans (tokLE_line ((List.pairwise_cons.mp hs).1 t ht2))

theorem nextLineNumber_le_right (new old : List HighlightingToken) (hs : old.Pairwise tokLE) :
    ∀ t ∈ old, nextLineNumber new old ≤ t.R.start.line := by
  cases old with
  | nil => intro t ht; cases ht
  | cons o ot =>
    have ho : nextLineNumber new (o :: ot) ≤ o.R.start.line := by
      cases new <;> simp [nextLineNumber]
    intro t ht
    rcases List.mem_cons.mp ht with rfl | ht2
    · exact ho
    · exact ho.trans (tokLE_line ((List.pairwise_cons.mp hs).1 t ht2))

theorem dropWhileLine_gt (L : Nat) (S : List HighlightingToken) (hs : S.Pairwise tokLE)
    (hlb : ∀ t ∈ S, L ≤ t.R.start.line) :
    ∀ t ∈ S.dropWhile (fun t => decide (t.R.start.line = L)), L < t.R.start.line := by
  intro t ht
  rcases hdrop : S.dropWhile (fun t => decide (t.R.start.line = L)) with _ | ⟨y, ys⟩
  · rw [hdrop] at ht
    cases ht
  · have hy_false := dropWhile_head_false _ S y ys hdrop
    have hy_mem : y ∈ S := (List.dropWhile_sublist _).subset
      (by rw [hdrop]; exact List.mem_cons_self y ys)
    have hyL : y.R.start.line ≠ L := by
      intro he
      rw [he] at hy_false
      simp at hy_false
    have hygt : L < y.R.start.line := by
      have := hlb y hy_mem
      omega
    rw [hdrop] at ht
    rcases List.mem_cons.mp ht with rfl | ht2
    · exact hygt
    · have hsorted_rest : (y :: ys).Pairwise tokLE := by
        rw [← hdrop]
        exact hs.sublist (List.dropWhile_sublist _)
      have := tokLE_line ((List.pairwise_cons.mp hsorted_rest).1 t ht2)
      omega

theorem diffGo_measure_lt (new old : List HighlightingToken) (h : ¬ (new = [] ∧ old = [])) :
    (new.dropWhile fun t => decide (t.R.start.line = nextLineNumber new old)).length +
      (old.dropWhile fun t => decide (t.R.start.line = nextLineNumber new old)).length <
      new.length + old.length := by
  rcases new with _ | ⟨n, nt⟩ <;> rcases old with _ | ⟨o, ot⟩
  · exact absurd ⟨rfl, rfl⟩ h
  · have h1 := dropWhileLine_length_lt (nextLineNumber [] (o :: ot)) o ot
      (by simp [nextLineNumber])
    simp only [List.dropWhile_nil, List.length_nil] at *
    omega
  · have h1 := dropWhileLine_length_lt (nextLineNumber (n :: nt) []) n nt
      (by simp [nextLineNumber])
    simp only [List.dropWhile_nil, List.length_nil] at *
    omega
  · rcases Nat.le_total n.R.start.line o.R.start.line with hmin | hmin
    · have h1 := dropWhileLine_length_lt (nextLineNumber (n :: nt) (o :: ot)) n nt
        (by simp [nextLineNumber, Nat.min_eq_left hmin])
      have h2 := dropWhileLine_length_le (nextLineNumber (n :: nt) (o :: ot)) (o :: ot)
      omega
    · have h1 := dropWhileLine_length_lt (nextLineNumber (n :: nt) (o :: ot)) o ot
        (by simp [nextLineNumber, Nat.min_eq_right hmin])
      have h2 := dropWhileLine_length_le (nextLineNumber (n :: nt) (o :: ot)) (n :: nt)
      omega

theorem applyDiffedLines_some {ds : List LineHighlightings} {old : List HighlightingToken}
    {L : Nat} {d : LineHighlightings}
    (h : ds.find? (fun d => decide (d.Line = L)) = some d) :
    applyDiffedLines ds old L = d.Tokens := by
  unfold applyDiffedLines
  rw [h]

theorem applyDiffedLines_none {ds : List LineHighlightings} {old : List HighlightingToken}
    {L : Nat} (h : ds.find? (fun d => decide (d.Line = L)) = none) :
    applyDiffedLines ds old L = lineFilter old L := by
  unfold applyDiffedLines
  rw [h]

theorem applyDiffedLines_cons_ne {e : LineHighlightings} {ds : List LineHighlightings}
    {old : List HighlightingToken} {L : Nat} (h : e.Line ≠ L) :
    applyDiffedLines (e :: ds) old L = applyDiffedLines ds old L := by
  unfold applyDiffedLines
  rw [List.find?_cons_of_neg _ (by simp [h])]

theorem diffGo_lines_mem :
    ∀ (n : Nat) (new old : List HighlightingToken), new.length + old.length ≤ n →
      ∀ d ∈ diffGo new old,
        (∃ t ∈ new, t.R.start.line = d.Line) ∨ (∃ t ∈ old, t.R.start.line = d.Line) := by
  intro n
  induction n with
  | zero =>
    intro new old hlen d hd
    have hn : new = [] := List.length_eq_zero.mp (by omega)
    have ho : old = [] := List.length_eq_zero.mp (by omega)
    subst hn; subst ho
    rw [diffGo_nil] at hd
    cases hd
  | succ n ih =>
    intro new old hlen d hd
    by_cases hboth : new = [] ∧ old = []
    · obtain ⟨rfl, rfl⟩ := hboth
      rw [diffGo_nil] at hd
      cases hd
    · rw [diffGo_unfold new old hboth] at hd
      have hmeas := diffGo_measure_lt new old hboth
      have hrec : ∀ d2 ∈ diffGo
          (new.dropWhile fun t => decide (t.R.start.line = nextLineNumber new old))
          (old.dropWhile fun t => decide (t.R.start.line = nextLineNumber new old)),
          (∃ t ∈ new, t.R.start.line = d2.Line) ∨ (∃ t ∈ old, t.R.start.line = d2.Line) := by
        intro d2 hd2
        rcases ih _ _ (by omega) d2 hd2 with ⟨t, ht, hl⟩ | ⟨t, ht, hl⟩
        · exact Or.inl ⟨t, (List.dropWhile_sublist _).subset ht, hl⟩
        · exact Or.inr ⟨t, (List.dropWhile_sublist _).subset ht, hl⟩
      by_cases heq : (new.takeWhile fun t => decide (t.R.start.line = nextLineNumber new old)) =
          (old.takeWhile fun t => decide (t.R.start.line = nextLineNumber new old))
      · rw [if_pos heq] at hd
        exact hrec d hd
      · rw [if_neg heq] at hd
        rcases List.mem_cons.mp hd with rfl | hd2
        · rcases new with _ | ⟨nn, nt⟩ <;> rcases old with _ | ⟨oo, ot⟩
          · exact absurd ⟨rfl, rfl⟩ hboth
          · exact Or.inr ⟨oo, List.mem_cons_self _ _, by simp [nextLineNumber]⟩
          · exact Or.inl ⟨nn, List.mem_cons_self _ _, by simp [nextLineNumber]⟩
          · rcases Nat.le_total nn.R.start.line oo.R.start.line with hm | hm
            · exact Or.inl ⟨nn, List.mem_cons_self _ _,
                by simp [nextLineNumber, Nat.min_eq_left hm]⟩
            · exact Or.inr ⟨oo, List.mem_cons_self _ _,
                by simp [nextLineNumber, Nat.min_eq_right hm]⟩
        · exact hrec d hd2

theorem diffGo_applyDiffedLines :
    ∀ (n : Nat) (new old : List HighlightingToken), new.length + old.length ≤ n →
      new.Pairwise tokLE → old.Pairwise tokLE →
      ∀ L, applyDiffedLines (diffGo new old) old L = lineFilter new L := by
  intro n
  induction n with
  | zero =>
    intro new old hlen _ _ L
    have hn : new = [] := List.length_eq_zero.mp (by omega)
    have ho : old = [] := List.length_eq_zero.mp (by omega)
    subst hn; subst ho
    rw [diffGo_nil, applyDiffedLines_none List.find?_nil]
  | succ n ih =>
    intro new old hlen hsN hsO L
    by_cases hboth : new = [] ∧ old = []
    · obtain ⟨rfl, rfl⟩ := hboth
      rw [diffGo_nil, applyDiffedLines_none List.find?_nil]
    · rw [diffGo_unfold new old hboth]
      have hlbN := nextLineNumber_le_left new old hsN
      have hlbO := nextLineNumber_le_right new old hsO
      have htwN := takeWhileLine_eq_lineFilter (nextLineNumber new old) new hsN hlbN
      have htwO := takeWhileLine_eq_lineFilter (nextLineNumber new old) old hsO hlbO
      have hgtN := dropWhileLine_gt (nextLineNumber new old) new hsN hlbN
      have hgtO := dropWhileLine_gt (nextLineNumber new old) old hsO hlbO
      have hsN2 : (new.dropWhile fun t =>
          decide (t.R.start.line = nextLineNumber new old)).Pairwise tokLE :=
        hsN.sublist (List.dropWhile_sublist _)
      have hsO2 : (old.dropWhile fun t =>
          decide (t.R.start.line = nextLineNumber new old)).Pairwise tokLE :=
        hsO.sublist (List.dropWhile_sublist _)
      have hmeas := diffGo_measure_lt new old hboth
      by_cases hL : L = nextLineNumber new old
      · subst hL
        by_cases heq : (new.takeWhile fun t => decide (t.R.start.line = nextLineNumber new old)) =
            (old.takeWhile fun t => decide (t.R.start.line = nextLineNumber new old))
        · rw [if_pos heq]
          have hfind : (diffGo
              (new.dropWhile fun t => decide (t.R.start.line = nextLineNumber new old))
              (old.dropWhile fun t => decide (t.R.start.line = nextLineNumber new old))).find?
              (fun d => decide (d.Line = nextLineNumber new old)) = none := by
            apply List.find?_eq_none.mpr
            intro d hd
            simp only [decide_eq_true_eq]
            rcases diffGo_lines_mem _ _ _ le_rfl d hd with ⟨t, ht, hl⟩ | ⟨t, ht, hl⟩
            · have := hgtN t ht
              omega
            · have := hgtO t ht
              omega
          rw [applyDiffedLines_none hfind]
          rw [← htwO, ← heq, htwN]
        · rw [if_neg heq]
          rw [applyDiffedLines_some (List.find?_cons_of_pos _ (by simp))]
          exact htwN
      · have hfN : lineFilter new L =
            lineFilter (new.dropWhile fun t =>
              decide (t.R.start.line = nextLineNumber new old)) L :=
          lineFilter_dropWhile_ne (nextLineNumber new old) L hL new
        have hfO : lineFilter old L =
            lineFilter (old.dropWhile fun t =>
              decide (t.R.start.line = nextLineNumber new old)) L :=
          lineFilter_dropWhile_ne (nextLineNumber new old) L hL old
        have hshared : applyDiffedLines (diffGo
            (new.dropWhile fun t => decide (t.R.start.line = nextLineNumber new old))
            (old.dropWhile fun t => decide (t.R.start.line = nextLineNumber new old)))
            old L = lineFilter new L := by
          have IH := ih _ _ (by omega) hsN2 hsO2 L
          cases hfind : (diffGo
              (new.dropWhile fun t => decide (t.R.start.line = nextLineNumber new old))
              (old.dropWhile fun t => decide (t.R.start.line = nextLineNumber new old))).find?
              (fun d => decide (d.Line = L)) with
          | some d =>
            rw [applyDiffedLines_some hfind]
            rw [applyDiffedLines_some hfind] at IH
            rw [IH, ← hfN]
          | none =>
            rw [applyDiffedLines_none hfind]
            rw [applyDiffedLines_none hfind] at IH
            rw [hfO, hfN]
            exact IH
        by_cases heq : (new.takeWhile fun t => decide (t.R.start.line = nextLineNumber new old)) =
            (old.takeWhile fun t => decide (t.R.start.line = nextLineNumber new old))
        · rw [if_pos heq]
          exact hshared
        · rw [if_neg heq]
          rw [applyDiffedLines_cons_ne (fun he => hL he.symm)]
          exact hshared

theorem diffHighlightings_eq_diffGo (New Old : List HighlightingToken) :
    diffHighlightings New Old = diffGo New Old := by
  unfold diffHighlightings
  by_cases hboth : New = [] ∧ Old = []
  · rw [if_pos hboth]
    obtain ⟨rfl, rfl⟩ := hboth
    rw [diffGo_nil]
  · rw [if_neg hboth]
    by_cases h0 : nextLineNumber New Old = 0
    · rw [diffGo_unfold New Old hboth, h0]
    · have hposN : ∀ nn nt, New = nn :: nt → nn.R.start.line ≠ 0 := by
        intro nn nt hNew hz
        have hle : nextLineNumber New Old ≤ nn.R.start.line := by
          subst hNew
          cases Old <;> simp [nextLineNumber]
        omega
      have hposO : ∀ oo ot, Old = oo :: ot → oo.R.start.line ≠ 0 := by
        intro oo ot hOld hz
        have hle : nextLineNumber New Old ≤ oo.R.start.line := by
          subst hOld
          cases New <;> simp [nextLineNumber]
        omega
      have htN : New.takeWhile (fun t => decide (t.R.start.line = 0)) = [] := by
        rcases hNew : New with _ | ⟨nn, nt⟩
        · rfl
        · exact List.takeWhile_cons_of_neg (by simp [hposN nn nt hNew])
      have htO : Old.takeWhile (fun t => decide (t.R.start.line = 0)) = [] := by
        rcases hOld : Old with _ | ⟨oo, ot⟩
        · rfl
        · exact List.takeWhile_cons_of_neg (by simp [hposO oo ot hOld])
      have hdN : New.dropWhile (fun t => decide (t.R.start.line = 0)) = New := by
        rcases hNew : New with _ | ⟨nn, nt⟩
        · rfl
        · exact List.dropWhile_cons_of_neg (by simp [hposN nn nt hNew])
      have hdO : Old.dropWhile (fun t => decide (t.R.start.line = 0)) = Old := by
        rcases hOld : Old with _ | ⟨oo, ot⟩
        · rfl
        · exact List.dropWhile_cons_of_neg (by simp [hposO oo ot hOld])
      rw [htN, htO, hdN, hdO, if_pos rfl]

/-- C2: for canonical (sorted) token sets `New` and `Old`, overwriting
`Old`'s per-start-line grouping with the (line, new-slice) records of
`diffHighlightings New Old` yields exactly `New`'s per-start-line grouping,
for every line number. -/
theorem diffHighlightings_complete (New Old : List HighlightingToken)
    (hN : New.Pairwise tokLE) (hO : Old.Pairwise tokLE) :
    ∀ L, applyDiffedLines (diffHighlightings New Old) Old L = lineFilter New L := by
  intro L
  rw [diffHighlightings_eq_diffGo]
  exact diffGo_applyDiffedLines (New.length + Old.length) New Old le_rfl hN hO L

/-- Witness for C2 at a concrete pair of sorted token sets: line 10's
grouping after applying the diff records is the new line 10 slice. -/
theorem diffHighlightings_complete_witness :
    applyDiffedLines
        (diffHighlightings [⟨HighlightingKind.Function, ⟨⟨10, 4⟩, ⟨10, 7⟩⟩⟩]
          [⟨HighlightingKind.Variable, ⟨⟨10, 0⟩, ⟨10, 3⟩⟩⟩])
        [⟨HighlightingKind.Variable, ⟨⟨10, 0⟩, ⟨10, 3⟩⟩⟩] 10 =
      lineFilter [⟨HighlightingKind.Function, ⟨⟨10, 4⟩, ⟨10, 7⟩⟩⟩] 10 ∧
    lineFilter [⟨HighlightingKind.Function, ⟨⟨10, 4⟩, ⟨10, 7⟩⟩⟩] 10 =
      [⟨HighlightingKind.Function, ⟨⟨10, 4⟩, ⟨10, 7⟩⟩⟩] :=
  ⟨diffHighlightings_complete [⟨HighlightingKind.Function, ⟨⟨10, 4⟩, ⟨10, 7⟩⟩⟩]
      [⟨HighlightingKind.Variable, ⟨⟨10, 0⟩, ⟨10, 3⟩⟩⟩] (by decide) (by decide) 10,
   by decide⟩

/-- C3 (failing input): `encodeBase64` reads the buffer through `char`,
which is signed on LLVM's mainstream targets, so a record byte ≥ 0x80 is
sign-extended before the shifts.  For the reachable changed line
`(5, [token start column 0, end column 128, kind Variable])` the record
bytes are `00 00 00 00 00 80 00 00`; the encoder emits `"AAAA//+AAAA="`,
which decodes (standard base64) to `00 00 00 FF FF 80 00 00` — start
column 255 and length 65408 instead of the encoded (0, 128, 0) triple, so
the round-trip of the claim fails. -/
theorem encodeBase64_signed_char_breaks_roundtrip :
    lineByteTokens [⟨HighlightingKind.Variable, ⟨⟨5, 0⟩, ⟨5, 128⟩⟩⟩] =
      [0, 0, 0, 0, 0, 128, 0, 0] ∧
    encodeBase64 [0, 0, 0, 0, 0, 128, 0, 0] = "AAAA//+AAAA=" ∧
    decodeBase64 "AAAA//+AAAA=" = some [0, 0, 0, 255, 255, 128, 0, 0] ∧
    decodeBase64 (encodeBase64 (lineByteTokens
        [⟨HighlightingKind.Variable, ⟨⟨5, 0⟩, ⟨5, 128⟩⟩⟩])) ≠
      some (lineByteTokens [⟨HighlightingKind.Variable, ⟨⟨5, 0⟩, ⟨5, 128⟩⟩⟩]) ∧
    readBE (([0, 0, 0, 255, 255, 128, 0, 0] : List Nat).take 4) = 255 ∧
    readBE ((([0, 0, 0, 255, 255, 128, 0, 0] : List Nat).drop 4).take 2) = 65408 := by
  refine ⟨by decide, by decide, by decide, by decide, by decide, by decide⟩

theorem b64Index_tableChar : ∀ i : Nat, i < 64 → b64Index (tableChar i) = some i := by
  decide

theorem tableChar_ne_pad : ∀ i : Nat, i < 64 → tableChar i ≠ '=' := by
  decide

theorem toSignedChar_of_lt {b : Nat} (hb : b < 128) : toSignedChar b = (b : Int) := by
  unfold toSignedChar
  rw [Nat.mod_eq_of_lt (by omega)]
  rw [if_pos hb]

theorem uint32OfInt_bytes3 {b0 b1 b2 : Nat} (h0 : b0 < 128) (h1 : b1 < 128) (h2 : b2 < 128) :
    uint32OfInt (toSignedChar b0 * 65536 + toSignedChar b1 * 256 + toSignedChar b2) =
      b0 * 65536 + b1 * 256 + b2 := by
  rw [toSignedChar_of_lt h0, toSignedChar_of_lt h1, toSignedChar_of_lt h2]
  unfold uint32OfInt
  omega

theorem uint32OfInt_bytes2 {b0 b1 : Nat} (h0 : b0 < 128) (h1 : b1 < 128) :
    uint32OfInt (toSignedChar b0 * 65536 + toSignedChar b1 * 256) = b0 * 65536 + b1 * 256 := by
  rw [toSignedChar_of_lt h0, toSignedChar_of_lt h1]
  unfold uint32OfInt
  omega

theorem uint32OfInt_bytes1 {b0 : Nat} (h0 : b0 < 128) :
    uint32OfInt (toSignedChar b0 * 65536) = b0 * 65536 := by
  rw [toSignedChar_of_lt h0]
  unfold uint32OfInt
  omega

/-- On buffers whose bytes are all < 0x80 the sign extension is the
identity and `encodeBase64` round-trips through standard base64 decoding:
the defect of `encodeBase64_signed_char_breaks_roundtrip` is exactly the
`char` sign extension of bytes ≥ 0x80. -/
theorem decodeBase64_encodeBase64_of_lt128 :
    ∀ (bs : List Nat), (∀ b ∈ bs, b < 128) →
      decodeBase64Chars (encodeBase64Chars bs) = some bs := by
  have main : ∀ (n : Nat) (bs : List Nat), bs.length ≤ n → (∀ b ∈ bs, b < 128) →
      decodeBase64Chars (encodeBase64Chars bs) = some bs := by
    intro n
    induction n with
    | zero =>
      intro bs hlen _
      have : bs = [] := List.length_eq_zero.mp (Nat.le_zero.mp hlen)
      subst this
      rfl
    | succ n ih =>
      intro bs hlen hlt
      match bs with
      | [] => rfl
      | [b0] =>
        have hb0 : b0 < 128 := hlt b0 (by simp)
        simp only [encodeBase64Chars]
        rw [uint32OfInt_bytes1 hb0]
        rw [decodeBase64Chars]
        rw [if_pos (show ('=' = '=' ∧ '=' = '=' ∧ ([] : List Char) = []) from ⟨rfl, rfl, rfl⟩)]
        rw [b64Index_tableChar _ (Nat.mod_lt _ (by norm_num)),
            b64Index_tableChar _ (Nat.mod_lt _ (by norm_num))]
        simp only [Option.some.injEq, List.cons.injEq, and_true]
        omega
      | [b0, b1] =>
        have hb0 : b0 < 128 := hlt b0 (by simp)
        have hb1 : b1 < 128 := hlt b1 (by simp)
        simp only [encodeBase64Chars]
        rw [uint32OfInt_bytes2 hb0 hb1]
        rw [decodeBase64Chars]
        rw [if_neg (fun hc =>
          tableChar_ne_pad _ (Nat.mod_lt _ (by norm_num)) hc.1)]
        rw [if_pos (show ('=' = '=' ∧ ([] : List Char) = []) from ⟨rfl, rfl⟩)]
        rw [b64Index_tableChar _ (Nat.mod_lt _ (by norm_num)),
            b64Index_tableChar _ (Nat.mod_lt _ (by norm_num)),
            b64Index_tableChar _ (Nat.mod_lt _ (by norm_num))]
        simp only [Option.some.injEq, List.cons.injEq, and_true]
        omega
      | b0 :: b1 :: b2 :: rest =>
        have hb0 : b0 < 128 := hlt b0 (by simp)
        have hb1 : b1 < 128 := hlt b1 (by simp)
        have hb2 : b2 < 128 := hlt b2 (by simp)
        have hrest : ∀ b ∈ rest, b < 128 := fun b hb => hlt b (by simp [hb])
        have hlenr : rest.length ≤ n := by
          simp only [List.length_cons] at hlen
          omega
        simp only [encodeBase64Chars]
        rw [uint32OfInt_bytes3 hb0 hb1 hb2]
        rw [decodeBase64Chars]
        rw [if_neg (fun hc =>
          tableChar_ne_pad _ (Nat.mod_lt _ (by norm_num)) hc.1)]
        rw [if_neg (fun hc =>
          tableChar_ne_pad _ (Nat.mod_lt _ (by norm_num)) hc.1)]
        rw [b64Index_tableChar _ (Nat.mod_lt _ (by norm_num)),
            b64Index_tableChar _ (Nat.mod_lt _ (by norm_num)),
            b64Index_tableChar _ (Nat.mod_lt _ (by norm_num)),
            b64Index_tableChar _ (Nat.mod_lt _ (by norm_num))]
        rw [ih rest hlenr hrest]
        simp only [Option.some.injEq, List.cons_append, List.nil_append, List.cons.injEq,
          and_true]
        omega
  intro bs hlt
  exact main bs.length bs le_rfl hlt
